import Mathlib

/-!
# Systemd unit generation helpers

A shallow embedding of `pkg/systemd/generate/common.go`.

Modelling conventions.

* A Go `string` is a Lean `String`, that is a sequence of Unicode code points
  (a Go string holding valid UTF-8).  All the literals the code compares
  against are ASCII.
* A Go `[]string` is a `List String`.
* A Go `error` is an `Option String`: `none` is the `nil` error and `some msg`
  is an error whose message is `msg`.
* A Go `int` is an `Int`.  A slice expression whose bounds are out of range
  panics; a function that can panic returns an `Option`, with `none` for the
  panic.
-/

namespace Generate

/-! ## Restart policies -/

/-- All valid restart policies to be used in a unit file (`RestartPolicies`). -/
def RestartPolicies : List String :=
  ["no", "on-success", "on-failure", "on-abnormal", "on-watchdog", "on-abort", "always"]

/-- The `for _, i := range RestartPolicies` loop of `validateRestartPolicy`,
over the policies not yet visited.  Falling out of the loop gives
`errors.Errorf("%s is not a valid restart policy", restart)`. -/
def validateRestartPolicyLoop (restart : String) : List String → Option String
  | [] => some (restart ++ " is not a valid restart policy")
  | i :: rest => if i = restart then none else validateRestartPolicyLoop restart rest

/-- Checks that the user-provided policy is valid (`validateRestartPolicy`). -/
def validateRestartPolicy (restart : String) : Option String :=
  validateRestartPolicyLoop restart RestartPolicies

/-! ## Pod flags -/

/-- Go `strings.HasPrefix(s, p)`: `len(s) >= len(p) && s[:len(p)] == p`.  The
code calls it with ASCII prefixes only, for which comparing code points and
comparing bytes agree. -/
def HasPrefix (s p : String) : Bool :=
  decide (p.data.length ≤ s.data.length) && decide (s.data.take p.data.length = p.data)

/-- The `for i := 0; i < len(command); i++` loop of `filterPodFlags`.  The first
argument is `command[i:]`, the second is `processed`.  On `--pod` and
`--pod-id-file` the body does `i++; continue`, so together with the loop
increment two elements are stepped over (or the loop ends when the flag is the
last element). -/
def filterPodFlagsLoop : List String → List String → List String
  | [], processed => processed
  | s :: rest, processed =>
    if s = "--pod" ∨ s = "--pod-id-file" then
      match rest with
      | [] => processed
      | _ :: rest2 => filterPodFlagsLoop rest2 processed
    else if HasPrefix s "--pod=" || HasPrefix s "--pod-id-file=" then
      filterPodFlagsLoop rest processed
    else
      filterPodFlagsLoop rest (processed ++ [s])

/-- Removes --pod and --pod-id-file from the specified command
(`filterPodFlags`). -/
def filterPodFlags (command : List String) : List String :=
  filterPodFlagsLoop command []

/-! ## Detach and replace flags -/

/-- The `for _, a := range args` loop of `removeArg`; the second list is
`newArgs`. -/
def removeArgLoop (arg : String) : List String → List String → List String
  | [], newArgs => newArgs
  | a :: rest, newArgs =>
    if a ≠ arg then removeArgLoop arg rest (newArgs ++ [a])
    else removeArgLoop arg rest newArgs

/-- Go `removeArg(arg, args)`. -/
def removeArg (arg : String) (args : List String) : List String :=
  removeArgLoop arg args []

/-- The Go slice expression `args[lo:]`; it panics unless `0 <= lo <= len(args)`. -/
def sliceFrom (args : List String) (lo : Int) : Option (List String) :=
  if 0 ≤ lo ∧ lo ≤ (args.length : Int) then some (args.drop lo.toNat) else none

/-- The Go slice expression `args[:hi]`; it panics unless `0 <= hi <= cap(args)`.
The capacity is taken to be the length.  In both callers `args[hi:]` is
evaluated first with the same `hi` and panics already when `hi > len(args)`,
so the capacity never decides the outcome. -/
def sliceTo (args : List String) (hi : Int) : Option (List String) :=
  if 0 ≤ hi ∧ hi ≤ (args.length : Int) then some (args.take hi.toNat) else none

/-- Go `removeDetachArg(args, argCount)`.  "--detach=false" could also be in the
container entrypoint, so the last `argCount` elements are split off first. -/
def removeDetachArg (args : List String) (argCount : Int) : Option (List String) := do
  let realArgs ← sliceFrom args ((args.length : Int) - argCount)
  let front ← sliceTo args ((args.length : Int) - argCount)
  let flagArgs := removeArg "-d=false" front
  let flagArgs := removeArg "--detach=false" flagArgs
  pure (flagArgs ++ realArgs)

/-- Go `removeReplaceArg(args, argCount)`.  "--replace=false" could also be in the
container entrypoint, so the last `argCount` elements are split off first. -/
def removeReplaceArg (args : List String) (argCount : Int) : Option (List String) := do
  let realArgs ← sliceFrom args ((args.length : Int) - argCount)
  let front ← sliceTo args ((args.length : Int) - argCount)
  let flagArgs := removeArg "--replace=false" front
  pure (flagArgs ++ realArgs)

/-- An element that `filterPodFlags` recognises as a pod flag: the two-token
flags `--pod`, `--pod-id-file` and the single-token forms `--pod=...`,
`--pod-id-file=...`. -/
def isPodFlag (s : String) : Bool :=
  decide (s = "--pod" ∨ s = "--pod-id-file") ||
    (HasPrefix s "--pod=" || HasPrefix s "--pod-id-file=")

/-! ## Quoting

`strconv.Quote` and `strings.ContainsAny` belong to the Go standard library.
They are transcribed here from the library's source.  `strconv.IsPrint`
decides code points above U+00FF by lookup in generated tables; that lookup is
the parameter `tbl`, and everything below U+0100 is decided by the code
itself. -/

/-- Go `strings.ContainsAny(s, chars)`: whether some code point of `chars`
occurs in `s`. -/
def ContainsAny (s chars : String) : Bool :=
  s.data.any (fun c => chars.data.contains c)

/-- Go `lowerhex[n]` for the constant `lowerhex = "0123456789abcdef"`. -/
def lowerhex (n : Nat) : Char :=
  "0123456789abcdef".data.getD n '0'

/-- Go `strconv.IsPrint(r)`.  The fast path for Latin-1 is the code's; `tbl`
stands for the table lookup made for larger code points. -/
def IsPrint (tbl : Char → Bool) (r : Char) : Bool :=
  if r.toNat ≤ 0xFF then
    if 0x20 ≤ r.toNat ∧ r.toNat ≤ 0x7E then true
    else if 0xA1 ≤ r.toNat ∧ r.toNat ≤ 0xFF then decide (r.toNat ≠ 0xAD)
    else false
  else tbl r

/-- What Go `appendEscapedRune(buf, r, '"', false, false)` appends to `buf`
for the rune `r`.  A `Char` is a valid rune, so the `!utf8.ValidRune(r)` case
does not arise. -/
def escapedRune (tbl : Char → Bool) (r : Char) : List Char :=
  if r = '"' ∨ r = '\\' then ['\\', r]
  else if IsPrint tbl r then [r]
  else if r = Char.ofNat 0x07 then ['\\', 'a']
  else if r = Char.ofNat 0x08 then ['\\', 'b']
  else if r = Char.ofNat 0x0C then ['\\', 'f']
  else if r = '\n' then ['\\', 'n']
  else if r = '\r' then ['\\', 'r']
  else if r = '\t' then ['\\', 't']
  else if r = Char.ofNat 0x0B then ['\\', 'v']
  else if r.toNat < 0x20 ∨ r.toNat = 0x7F then
    ['\\', 'x', lowerhex (r.toNat / 16 % 16), lowerhex (r.toNat % 16)]
  else if r.toNat < 0x10000 then
    ['\\', 'u', lowerhex (r.toNat / 0x1000 % 16), lowerhex (r.toNat / 0x100 % 16),
      lowerhex (r.toNat / 0x10 % 16), lowerhex (r.toNat % 16)]
  else
    ['\\', 'U', lowerhex (r.toNat / 0x10000000 % 16), lowerhex (r.toNat / 0x1000000 % 16),
      lowerhex (r.toNat / 0x100000 % 16), lowerhex (r.toNat / 0x10000 % 16),
      lowerhex (r.toNat / 0x1000 % 16), lowerhex (r.toNat / 0x100 % 16),
      lowerhex (r.toNat / 0x10 % 16), lowerhex (r.toNat % 16)]

/-- Go `appendEscapedRune(buf, r, '"', false, false)`. -/
def appendEscapedRune (tbl : Char → Bool) (buf : List Char) (r : Char) : List Char :=
  buf ++ escapedRune tbl r

/-- Go `appendQuotedWith(buf, s, '"', false, false)`: the opening quote, the
runes of `s` escaped one after the other, the closing quote.  The string holds
valid UTF-8, so every rune decodes and the `\x` escape for an undecodable
byte is never taken. -/
def appendQuotedWith (tbl : Char → Bool) (buf : List Char) (s : String) : List Char :=
  (s.data.foldl (appendEscapedRune tbl) (buf ++ ['"'])) ++ ['"']

/-- Go `strconv.Quote(s)`. -/
def Quote (tbl : Char → Bool) (s : String) : String :=
  String.mk (appendQuotedWith tbl [] s)

/-- One iteration of the `for i := range command` loop of `quoteArguments`:
`command[i]` is overwritten in place when it holds a space or a tab.  The loop
only visits indices below `len(command)`, so the default of `getD` is never
read. -/
def quoteArgumentsStep (tbl : Char → Bool) (command : List String) (i : Nat) : List String :=
  if ContainsAny (command.getD i "") " \t" then
    command.set i (Quote tbl (command.getD i ""))
  else command

/-- Go `quoteArguments(command)`: makes sure that all arguments with at least one
whitespace are quoted.  The loop writes into `command` itself and the function
returns that same slice; the value is the slice's contents at return. -/
def quoteArguments (tbl : Char → Bool) (command : List String) : List String :=
  (List.range command.length).foldl (quoteArgumentsStep tbl) command

/-! ## Splitting on white space -/

/-- Go `unicode.IsSpace(r)`: the Latin-1 white space and the code points with the
Unicode property White_Space. -/
def IsSpace (r : Char) : Bool :=
  r = '\t' ∨ r = '\n' ∨ r = Char.ofNat 0x0B ∨ r = Char.ofNat 0x0C ∨ r = '\r' ∨ r = ' ' ∨
  r = Char.ofNat 0x85 ∨ r = Char.ofNat 0xA0 ∨ r = Char.ofNat 0x1680 ∨
  (0x2000 ≤ r.toNat ∧ r.toNat ≤ 0x200A) ∨ r = Char.ofNat 0x2028 ∨ r = Char.ofNat 0x2029 ∨
  r = Char.ofNat 0x202F ∨ r = Char.ofNat 0x205F ∨ r = Char.ofNat 0x3000

/-- The fields of a text read left to right: `cur` is the field being read.  A
white-space character ends the current field, and an empty field is not
recorded. -/
def fieldsLoop : List Char → List Char → List (List Char)
  | [], cur => if cur = [] then [] else [cur]
  | c :: rest, cur =>
    if IsSpace c then
      if cur = [] then fieldsLoop rest [] else cur :: fieldsLoop rest []
    else fieldsLoop rest (cur ++ [c])

/-- Go `strings.Fields(s)`: `s` split around each run of white space. -/
def Fields (s : String) : List String :=
  (fieldsLoop s.data []).map String.mk

/-- Go `strings.Join(elems, " ")`. -/
def joinSpaces : List String → String
  | [] => ""
  | [a] => a
  | a :: rest => a ++ " " ++ joinSpaces rest


/-- Reading of a rendered command line that honours double quotes, as the
consumer of a unit file reads it: white space separates tokens only outside
double quotes, and inside double quotes a backslash takes the next character
literally (so an escaped double quote does not close the quotation).  The
arguments are the text left to read, the token being read `cur`, whether the
reader is inside double quotes, and whether the previous character was an
escaping backslash.  Tokens keep their text as written, quotes included. -/
def splitQuotedLoop : List Char → List Char → Bool → Bool → List (List Char)
  | [], cur, _, _ => if cur = [] then [] else [cur]
  | c :: rest, cur, inQuote, escaped =>
    if escaped then splitQuotedLoop rest (cur ++ [c]) inQuote false
    else if inQuote then
      if c = '\\' then splitQuotedLoop rest (cur ++ [c]) true true
      else if c = '"' then splitQuotedLoop rest (cur ++ [c]) false false
      else splitQuotedLoop rest (cur ++ [c]) true false
    else if c = '"' then splitQuotedLoop rest (cur ++ [c]) true false
    else if IsSpace c then
      if cur = [] then splitQuotedLoop rest [] false false
      else cur :: splitQuotedLoop rest [] false false
    else splitQuotedLoop rest (cur ++ [c]) false false

/-- The tokens of `s` when it is split on the white space outside double
quotes. -/
def splitQuoted (s : String) : List String :=
  (splitQuotedLoop s.data [] false false).map String.mk

/-! ## Header template -/

/-- Modelled from the spec: the type `entities.GenerateSystemdOptions` is declared
outside the files at hand.  The fields are the ones the specification lists
for the generation options: refer to the entity by name, create a new
container or pod, the restart policy, the stop timeout in seconds, the prefixes
for containers and pods, the separator, and whether the header is left
out. -/
structure GenerateSystemdOptions where
  Name : Bool
  New : Bool
  RestartPolicy : String
  StopTimeout : Nat
  ContainerPrefix : String
  PodPrefix : String
  Separator : String
  NoHeader : Bool

/-- The constant `serviceHeader` of `generateHeaderTemplate`. -/
def serviceHeader : String :=
  "# \x7b\x7b\x7b\x7b.ServiceName\x7d\x7d\x7d\x7d.service\n"

/-- The constant `infoHeader` of `generateHeaderTemplate`. -/
def infoHeader : String :=
  "# autogenerated by Podman \x7b\x7b\x7b\x7b.PodmanVersion\x7d\x7d\x7d\x7d\n" ++
  "\x7b\x7b\x7b\x7b- if .TimeStamp\x7d\x7d\x7d\x7d\n" ++
  "# \x7b\x7b\x7b\x7b.TimeStamp\x7d\x7d\x7d\x7d\n" ++
  "\x7b\x7b\x7b\x7b- end\x7d\x7d\x7d\x7d\n"

/-- The constant `unitHeader` of `generateHeaderTemplate`. -/
def unitHeader : String :=
  "[Unit]\n" ++
  "Description=Podman \x7b\x7b\x7b\x7b.ServiceName\x7d\x7d\x7d\x7d.service\n" ++
  "Documentation=man:podman-generate-systemd(1)\n" ++
  "Wants=network.target\n" ++
  "After=network-online.target\n"

/-- Go `generateHeaderTemplate(options)`: `template` starts as
`serviceHeader + infoHeader`, is reset to `serviceHeader` when
`options.NoHeader` is set, and gets a newline and `unitHeader` appended. -/
def generateHeaderTemplate (options : GenerateSystemdOptions) : String :=
  let template := serviceHeader ++ infoHeader
  let template := if options.NoHeader then serviceHeader else template
  let template := template ++ "\n" ++ unitHeader
  template

/-- Go `strings.Contains(s, substr)`: `substr` starts at some position of `s`. -/
def Contains (s substr : String) : Bool :=
  s.data.tails.any (fun t => substr.data.isPrefixOf t)

/-- Go `strings.HasSuffix(s, suffix)`. -/
def HasSuffix (s suffix : String) : Bool :=
  decide (suffix.data.length ≤ s.data.length) &&
    decide (s.data.drop (s.data.length - suffix.data.length) = suffix.data)

/-! ## Index-level forms

The loops of `filterPodFlags` and `quoteArguments` written with their index
expressions checked: an index out of range gives `none`, as the run-time panic
would. -/

/-- The loop of `filterPodFlags` with the loop index `i` kept and `command[i]`
checked.  The first number bounds the iterations still allowed; running out of
them gives `none` as well. -/
def filterPodFlagsChecked (command : List String) :
    Nat → Nat → List String → Option (List String)
  | 0, _, _ => none
  | fuel + 1, i, processed =>
    if i < command.length then
      match command[i]? with
      | none => none
      | some s =>
        if s = "--pod" ∨ s = "--pod-id-file" then
          filterPodFlagsChecked command fuel (i + 1 + 1) processed
        else if HasPrefix s "--pod=" || HasPrefix s "--pod-id-file=" then
          filterPodFlagsChecked command fuel (i + 1) processed
        else
          filterPodFlagsChecked command fuel (i + 1) (processed ++ [s])
    else some processed

/-- One iteration of the loop of `quoteArguments` with the read and the write of
`command[i]` checked. -/
def quoteArgumentsStepChecked (tbl : Char → Bool) (command : List String) (i : Nat) :
    Option (List String) :=
  match command[i]? with
  | none => none
  | some s =>
    if ContainsAny s " \t" then
      if i < command.length then some (command.set i (Quote tbl s)) else none
    else some command

/-- The loop of `quoteArguments` over `i = 0, ..., len(command) - 1` with every
index expression checked. -/
def quoteArgumentsChecked (tbl : Char → Bool) (command : List String) :
    Option (List String) :=
  (List.range command.length).foldlM (quoteArgumentsStepChecked tbl) command

/-! ## The caller's view of `quoteArguments`

A Go slice is a view of a backing array: passing `command` to a function copies
the view, not the array.  Here the memory is a map from addresses to strings
and a slice is the address of its first element and its length. -/

/-- A slice header: the address of element 0 and the length. -/
structure Slice where
  ptr : Nat
  len : Nat

/-- The elements a slice shows in a memory. -/
def readSlice (mem : Nat → String) (s : Slice) : List String :=
  (List.range s.len).map (fun i => mem (s.ptr + i))

/-- One iteration of the loop of `quoteArguments` on the memory: the assignment
`command[i] = strconv.Quote(command[i])` writes the cell of `command[i]`. -/
def quoteArgumentsCell (tbl : Char → Bool) (command : Slice) (mem : Nat → String) (i : Nat) :
    Nat → String :=
  if ContainsAny (mem (command.ptr + i)) " \t" then
    Function.update mem (command.ptr + i) (Quote tbl (mem (command.ptr + i)))
  else mem

/-- Go `quoteArguments(command)` with the memory passed along: the memory after
the call and the returned slice, which is the parameter `command` itself. -/
def quoteArgumentsMem (tbl : Char → Bool) (mem : Nat → String) (command : Slice) :
    (Nat → String) × Slice :=
  ((List.range command.len).foldl (quoteArgumentsCell tbl command) mem, command)

/-- A memory whose cells from address 0 hold the elements of a list. -/
def memOf (l : List String) : Nat → String :=
  fun a => l.getD a ""

/-! ## Which elements `filterPodFlags` drops -/

/-- The elements of `l` at the positions where `mask` holds `true`, in order. -/
def keepMasked (l : List String) (mask : List Bool) : List String :=
  (l.zip mask).filterMap (fun p => if p.2 = true then some p.1 else none)

/-- Every position that `mask` drops from `l` holds a pod flag or comes right
after a `--pod` or `--pod-id-file` token of `l`. -/
def DropsOnlyPodFlags (l : List String) (mask : List Bool) : Prop :=
  ∀ (i : Nat) (x : String), l[i]? = some x → mask[i]? = some false →
    (isPodFlag x = true ∨
      ∃ j : Nat, i = j + 1 ∧ (l[j]? = some "--pod" ∨ l[j]? = some "--pod-id-file"))

/-! ## Theorems -/

theorem validateRestartPolicyLoop_eq (p : String) (l : List String) :
    validateRestartPolicyLoop p l =
      if p ∈ l then none else some (p ++ " is not a valid restart policy") := by
  induction l with
  | nil => simp [validateRestartPolicyLoop]
  | cons i rest ih =>
    simp only [validateRestartPolicyLoop, ih, List.mem_cons]
    by_cases h : i = p
    · simp [h]
    · have h2 : ¬ p = i := fun e => h e.symm
      simp [h, h2]

theorem string_append_right_cancel (a b c : String) (h : a ++ c = b ++ c) : a = b := by
  have h2 : (a ++ c).data = (b ++ c).data := by rw [h]
  simp only [String.data_append] at h2
  exact String.ext (List.append_cancel_right h2)

/-- C1: `validateRestartPolicy p` returns no error if and only if `p` is exactly one
of the seven policy strings (case-sensitive, no trimming); the empty string,
"Always" and " always" are rejected. -/
theorem validateRestartPolicy_ok_iff :
    (∀ p : String, validateRestartPolicy p = none ↔
      (p = "no" ∨ p = "on-success" ∨ p = "on-failure" ∨ p = "on-abnormal" ∨
        p = "on-watchdog" ∨ p = "on-abort" ∨ p = "always")) ∧
    validateRestartPolicy "" ≠ none ∧
    validateRestartPolicy "Always" ≠ none ∧
    validateRestartPolicy " always" ≠ none := by
  refine ⟨fun p => ?_, by decide, by decide, by decide⟩
  unfold validateRestartPolicy
  rw [validateRestartPolicyLoop_eq]
  simp only [RestartPolicies, List.mem_cons, List.mem_nil_iff, or_false]
  split_ifs with h
  · exact ⟨fun _ => h, fun _ => rfl⟩
  · exact ⟨fun e => absurd e (by simp), fun e => absurd e h⟩

/-- C2: for a string `p` that is not one of the seven valid restart policies the
error message is exactly `p` followed by " is not a valid restart policy", and
two different rejected values give two different errors. -/
theorem validateRestartPolicy_error (p : String) (hp : p ∉ RestartPolicies) :
    validateRestartPolicy p = some (p ++ " is not a valid restart policy") ∧
    ∀ q : String, q ∉ RestartPolicies → q ≠ p →
      validateRestartPolicy q ≠ validateRestartPolicy p := by
  have key : ∀ r : String, r ∉ RestartPolicies →
      validateRestartPolicy r = some (r ++ " is not a valid restart policy") := by
    intro r hr
    unfold validateRestartPolicy
    rw [validateRestartPolicyLoop_eq, if_neg hr]
  refine ⟨key p hp, fun q hq hne heq => ?_⟩
  rw [key p hp, key q hq] at heq
  exact hne (string_append_right_cancel _ _ _ (Option.some.inj heq))

/-- C2 at the rejected values "Always" and " always". -/
theorem validateRestartPolicy_error_witness :
    validateRestartPolicy "Always" = some "Always is not a valid restart policy" ∧
    validateRestartPolicy " always" ≠ validateRestartPolicy "Always" :=
  ⟨(validateRestartPolicy_error "Always" (by decide)).1,
   (validateRestartPolicy_error "Always" (by decide)).2 " always" (by decide) (by decide)⟩


theorem removeArgLoop_eq (arg : String) (l acc : List String) :
    removeArgLoop arg l acc = acc ++ l.filter (fun a => decide (a ≠ arg)) := by
  induction l generalizing acc with
  | nil => simp [removeArgLoop]
  | cons a rest ih =>
    by_cases h : a = arg
    · simp [removeArgLoop, ih, h]
    · simp [removeArgLoop, ih, h]

theorem removeArg_eq_filter (arg : String) (l : List String) :
    removeArg arg l = l.filter (fun a => decide (a ≠ arg)) := by
  simp [removeArg, removeArgLoop_eq]

theorem sliceFrom_split (args : List String) (argCount : Int) (h0 : 0 ≤ argCount)
    (h1 : argCount ≤ (args.length : Int)) :
    sliceFrom args ((args.length : Int) - argCount) =
      some (args.drop (args.length - argCount.toNat)) := by
  have e : ((args.length : Int) - argCount).toNat = args.length - argCount.toNat := by omega
  have c : 0 ≤ (args.length : Int) - argCount ∧
      (args.length : Int) - argCount ≤ (args.length : Int) := by omega
  simp only [sliceFrom, if_pos c, e]

theorem sliceTo_split (args : List String) (argCount : Int) (h0 : 0 ≤ argCount)
    (h1 : argCount ≤ (args.length : Int)) :
    sliceTo args ((args.length : Int) - argCount) =
      some (args.take (args.length - argCount.toNat)) := by
  have e : ((args.length : Int) - argCount).toNat = args.length - argCount.toNat := by omega
  have c : 0 ≤ (args.length : Int) - argCount ∧
      (args.length : Int) - argCount ≤ (args.length : Int) := by omega
  simp only [sliceTo, if_pos c, e]

/-- C3: for `0 <= argCount <= len(args)`, `removeDetachArg args argCount` is the
first `len(args) - argCount` elements of `args` with every element equal to
"-d=false" or "--detach=false" removed, order kept, followed by the last
`argCount` elements of `args` unchanged. -/
theorem removeDetachArg_spec (args : List String) (argCount : Int) (h0 : 0 ≤ argCount)
    (h1 : argCount ≤ (args.length : Int)) :
    removeDetachArg args argCount =
      some ((args.take (args.length - argCount.toNat)).filter
              (fun a => decide (a ≠ "-d=false" ∧ a ≠ "--detach=false")) ++
            args.drop (args.length - argCount.toNat)) := by
  simp only [removeDetachArg, sliceFrom_split args argCount h0 h1,
    sliceTo_split args argCount h0 h1, removeArg_eq_filter, List.filter_filter,
    Option.bind_eq_bind, Option.some_bind, Option.pure_def]
  congr 3
  funext a
  simp [and_comm]

/-- C3 at the example of the specification: the "-d=false" among the flags goes,
the one among the last two elements stays. -/
theorem removeDetachArg_spec_witness :
    removeDetachArg ["run", "-d=false", "--name", "c1", "echo", "-d=false"] 2 =
      some ["run", "--name", "c1", "echo", "-d=false"] :=
  (removeDetachArg_spec ["run", "-d=false", "--name", "c1", "echo", "-d=false"] 2
    (by decide) (by decide)).trans (by decide)

/-- C4: for `0 <= argCount <= len(args)`, `removeReplaceArg args argCount` is the
first `len(args) - argCount` elements of `args` with every element equal to
"--replace=false" removed, order kept, followed by the last `argCount` elements
of `args` unchanged (so a "--replace=false" among them stays). -/
theorem removeReplaceArg_spec (args : List String) (argCount : Int) (h0 : 0 ≤ argCount)
    (h1 : argCount ≤ (args.length : Int)) :
    removeReplaceArg args argCount =
      some ((args.take (args.length - argCount.toNat)).filter
              (fun a => decide (a ≠ "--replace=false")) ++
            args.drop (args.length - argCount.toNat)) := by
  simp only [removeReplaceArg, sliceFrom_split args argCount h0 h1,
    sliceTo_split args argCount h0 h1, removeArg_eq_filter,
    Option.bind_eq_bind, Option.some_bind, Option.pure_def]

/-- C4 at a command whose last two elements hold a "--replace=false". -/
theorem removeReplaceArg_spec_witness :
    removeReplaceArg ["run", "--replace=false", "--name", "c1", "sh", "--replace=false"] 2 =
      some ["run", "--name", "c1", "sh", "--replace=false"] :=
  (removeReplaceArg_spec ["run", "--replace=false", "--name", "c1", "sh", "--replace=false"] 2
    (by decide) (by decide)).trans (by decide)

/-- C5: `removeArg target args` is `args` with the elements equal to `target`
filtered out, in the original order: the result has no element equal to
`target`, and every other element keeps its multiplicity, also one that only
contains `target` as a proper substring. -/
theorem removeArg_spec (target : String) (args : List String) :
    removeArg target args = args.filter (fun a => decide (a ≠ target)) ∧
    target ∉ removeArg target args ∧
    (∀ a : String, a ≠ target → (removeArg target args).count a = args.count a) ∧
    removeArg "-d=false" ["run", "--mydetach=-d=false-ish", "-d=false"] =
      ["run", "--mydetach=-d=false-ish"] := by
  refine ⟨removeArg_eq_filter target args, ?_, ?_, by decide⟩
  · rw [removeArg_eq_filter]
    simp [List.mem_filter]
  · intro a ha
    rw [removeArg_eq_filter]
    exact List.count_filter (by simpa using ha)


theorem filterPodFlagsLoop_cons (s : String) (rest processed : List String) :
    filterPodFlagsLoop (s :: rest) processed =
      if s = "--pod" ∨ s = "--pod-id-file" then filterPodFlagsLoop (rest.drop 1) processed
      else if (HasPrefix s "--pod=" || HasPrefix s "--pod-id-file=") = true then
        filterPodFlagsLoop rest processed
      else filterPodFlagsLoop rest (processed ++ [s]) := by
  cases rest with
  | nil =>
    rw [filterPodFlagsLoop.eq_2]
    simp only [filterPodFlagsLoop.eq_1, List.drop_nil]
  | cons v rest2 =>
    rw [filterPodFlagsLoop.eq_3]
    simp only [List.drop_succ_cons, List.drop_zero]

theorem filterPodFlagsLoop_acc (n : Nat) : ∀ (l acc : List String), l.length ≤ n →
    filterPodFlagsLoop l acc = acc ++ filterPodFlagsLoop l [] := by
  induction n with
  | zero =>
    intro l acc hl
    have : l = [] := List.length_eq_zero.mp (Nat.le_zero.mp hl)
    subst this
    simp [filterPodFlagsLoop]
  | succ n ih =>
    intro l acc hl
    cases l with
    | nil => simp [filterPodFlagsLoop]
    | cons s rest =>
      have hr : rest.length ≤ n := by simpa using hl
      rw [filterPodFlagsLoop_cons, filterPodFlagsLoop_cons s rest []]
      split_ifs with h1 h2
      · exact ih (rest.drop 1) acc (by simp; omega)
      · exact ih rest acc hr
      · rw [ih rest (acc ++ [s]) hr, ih rest ([] ++ [s]) hr]
        simp

theorem filterPodFlags_nil : filterPodFlags [] = [] := rfl

theorem filterPodFlags_cons (s : String) (rest : List String) :
    filterPodFlags (s :: rest) =
      if s = "--pod" ∨ s = "--pod-id-file" then filterPodFlags (rest.drop 1)
      else if (HasPrefix s "--pod=" || HasPrefix s "--pod-id-file=") = true then
        filterPodFlags rest
      else s :: filterPodFlags rest := by
  simp only [filterPodFlags]
  rw [filterPodFlagsLoop_cons]
  split_ifs with h1 h2
  · rfl
  · rfl
  · rw [filterPodFlagsLoop_acc rest.length rest _ le_rfl]
    simp

theorem filterPodFlags_cons_keep (s : String) (rest : List String) (h : isPodFlag s = false) :
    filterPodFlags (s :: rest) = s :: filterPodFlags rest := by
  simp only [isPodFlag, Bool.or_eq_false_iff, decide_eq_false_iff_not] at h
  rw [filterPodFlags_cons, if_neg h.1, if_neg]
  simp [h.2]

theorem filterPodFlags_length_le (n : Nat) : ∀ l : List String, l.length ≤ n →
    (filterPodFlags l).length ≤ l.length := by
  induction n with
  | zero =>
    intro l hl
    have : l = [] := List.length_eq_zero.mp (Nat.le_zero.mp hl)
    subst this
    simp [filterPodFlags_nil]
  | succ n ih =>
    intro l hl
    cases l with
    | nil => simp [filterPodFlags_nil]
    | cons s rest =>
      have hr : rest.length ≤ n := by simpa using hl
      rw [filterPodFlags_cons]
      split_ifs with h1 h2
      · have hd : (rest.drop 1).length ≤ n := by simp; omega
        have := ih (rest.drop 1) hd
        simp at this ⊢
        omega
      · have := ih rest hr
        simp
        omega
      · have := ih rest hr
        simpa using this

theorem filterPodFlags_fixed : ∀ l : List String, filterPodFlags l = l →
    ∀ x ∈ l, isPodFlag x = false := by
  intro l
  induction l with
  | nil => intro _ x hx; simp at hx
  | cons s rest ih =>
    intro h x hx
    have hlen := filterPodFlags_length_le rest.length rest le_rfl
    rw [filterPodFlags_cons] at h
    split_ifs at h with h1 h2
    · exfalso
      have h3 := filterPodFlags_length_le (rest.drop 1).length (rest.drop 1) le_rfl
      have h4 := congrArg List.length h
      simp at h3 h4
      omega
    · exfalso
      have h4 := congrArg List.length h
      simp at h4
      omega
    · have hs : isPodFlag s = false := by
        simp only [isPodFlag, Bool.or_eq_false_iff, decide_eq_false_iff_not]
        exact ⟨h1, by simpa using h2⟩
      rcases List.mem_cons.mp hx with rfl | hx
      · exact hs
      · exact ih (List.cons.inj h).2 x hx

theorem filterPodFlags_append_of_clean : ∀ (pre post : List String),
    (∀ x ∈ pre, isPodFlag x = false) →
    filterPodFlags (pre ++ post) = pre ++ filterPodFlags post := by
  intro pre post
  induction pre with
  | nil => intro _; rfl
  | cons s rest ih =>
    intro h
    have hs := h s (List.mem_cons_self _ _)
    rw [List.cons_append, filterPodFlags_cons_keep _ _ hs,
      ih (fun x hx => h x (List.mem_cons_of_mem _ hx))]
    rfl

theorem filterPodFlags_clean (n : Nat) : ∀ l : List String, l.length ≤ n →
    ∀ x ∈ filterPodFlags l, isPodFlag x = false := by
  induction n with
  | zero =>
    intro l hl
    have : l = [] := List.length_eq_zero.mp (Nat.le_zero.mp hl)
    subst this
    simp [filterPodFlags_nil]
  | succ n ih =>
    intro l hl
    cases l with
    | nil => simp [filterPodFlags_nil]
    | cons s rest =>
      have hr : rest.length ≤ n := by simpa using hl
      rw [filterPodFlags_cons]
      split_ifs with h1 h2
      · exact ih (rest.drop 1) (by simp; omega)
      · exact ih rest hr
      · intro x hx
        rcases List.mem_cons.mp hx with rfl | hx
        · simp only [isPodFlag, Bool.or_eq_false_iff, decide_eq_false_iff_not]
          exact ⟨h1, by simpa using h2⟩
        · exact ih rest hr x hx

/-- C6: two-token form.  When `pre` holds no pod flag (`filterPodFlags pre = pre`)
and `f` is "--pod" or "--pod-id-file", then
`filterPodFlags (pre ++ [f, v] ++ post) = pre ++ filterPodFlags post`: the flag
token and the token after it are both dropped, whatever that token is. -/
theorem filterPodFlags_two_token (pre post : List String) (f v : String)
    (hpre : filterPodFlags pre = pre) (hf : f = "--pod" ∨ f = "--pod-id-file") :
    filterPodFlags (pre ++ [f, v] ++ post) = pre ++ filterPodFlags post := by
  rw [List.append_assoc, filterPodFlags_append_of_clean _ _ (filterPodFlags_fixed pre hpre)]
  congr 1
  simp only [List.cons_append, List.nil_append]
  rw [filterPodFlags_cons, if_pos hf]
  rfl

/-- C6 at the example of the specification. -/
theorem filterPodFlags_two_token_witness :
    filterPodFlags (["run"] ++ ["--pod", "p1"] ++ ["--pod-id-file=/tmp/x", "nginx"]) =
        ["run"] ++ filterPodFlags ["--pod-id-file=/tmp/x", "nginx"] ∧
    filterPodFlags ["run", "--pod", "p1", "--pod-id-file=/tmp/x", "nginx"] = ["run", "nginx"] :=
  ⟨filterPodFlags_two_token ["run"] ["--pod-id-file=/tmp/x", "nginx"] "--pod" "p1"
    (by decide) (by decide), by decide⟩

/-- C7: single-token form.  When `pre` holds no pod flag and `t` starts with
"--pod=" or "--pod-id-file=", then
`filterPodFlags (pre ++ [t] ++ post) = pre ++ filterPodFlags post`: only `t` is
dropped and the token after it is processed normally. -/
theorem filterPodFlags_single_token (pre post : List String) (t : String)
    (hpre : filterPodFlags pre = pre)
    (ht : HasPrefix t "--pod=" = true ∨ HasPrefix t "--pod-id-file=" = true) :
    filterPodFlags (pre ++ [t] ++ post) = pre ++ filterPodFlags post := by
  rw [List.append_assoc, filterPodFlags_append_of_clean _ _ (filterPodFlags_fixed pre hpre)]
  congr 1
  simp only [List.cons_append, List.nil_append]
  rw [filterPodFlags_cons]
  have h2 : (HasPrefix t "--pod=" || HasPrefix t "--pod-id-file=") = true := by
    simpa using ht
  split_ifs with h1
  · exfalso
    rcases h1 with rfl | rfl
    · revert ht; decide
    · revert ht; decide
  · rfl

/-- C7 at a command where a two-token flag follows the dropped token. -/
theorem filterPodFlags_single_token_witness :
    filterPodFlags (["run", "--name", "c1"] ++ ["--pod=p1"] ++ ["--pod", "x", "nginx"]) =
      ["run", "--name", "c1"] ++ filterPodFlags ["--pod", "x", "nginx"] :=
  filterPodFlags_single_token ["run", "--name", "c1"] ["--pod", "x", "nginx"] "--pod=p1"
    (by decide) (by decide)

/-- C8: `filterPodFlags` is idempotent on every list, also when a "--pod" token is
followed by another pod flag or is the last element. -/
theorem filterPodFlags_idempotent (command : List String) :
    filterPodFlags (filterPodFlags command) = filterPodFlags command := by
  have h := filterPodFlags_append_of_clean (filterPodFlags command) []
    (filterPodFlags_clean command.length command le_rfl)
  simpa [filterPodFlags_nil] using h


theorem getD_append_cons (A B : List String) (x d : String) :
    (A ++ x :: B).getD A.length d = x := by
  induction A with
  | nil => rfl
  | cons a A ih => simpa using ih

theorem set_append_cons (A B : List String) (x y : String) :
    (A ++ x :: B).set A.length y = A ++ y :: B := by
  induction A with
  | nil => rfl
  | cons a A ih => simp [ih]

theorem quoteArgumentsStep_at (tbl : Char → Bool) (A B : List String) (x : String) :
    quoteArgumentsStep tbl (A ++ x :: B) A.length =
      A ++ (if ContainsAny x " \t" = true then Quote tbl x else x) :: B := by
  unfold quoteArgumentsStep
  rw [getD_append_cons]
  split_ifs with hc
  · rw [set_append_cons]
  · rfl

theorem quoteArguments_fold (tbl : Char → Bool) (command : List String) :
    ∀ n : Nat, n ≤ command.length →
      (List.range n).foldl (quoteArgumentsStep tbl) command =
        (command.take n).map
            (fun s => if ContainsAny s " \t" = true then Quote tbl s else s) ++
          command.drop n := by
  intro n
  induction n with
  | zero => intro _; simp
  | succ n ih =>
    intro hn
    have hlt : n < command.length := hn
    rw [List.range_succ, List.foldl_append, List.foldl_cons, List.foldl_nil, ih (by omega)]
    have hd : command.drop n = command[n] :: command.drop (n + 1) :=
      List.drop_eq_getElem_cons hlt
    have ht : command.take (n + 1) = command.take n ++ [command[n]] := by
      rw [List.take_succ, List.getElem?_eq_getElem hlt]
      rfl
    have hl : ((command.take n).map
        (fun s => if ContainsAny s " \t" = true then Quote tbl s else s)).length = n := by
      rw [List.length_map, List.length_take]
      omega
    have key := quoteArgumentsStep_at tbl ((command.take n).map
        (fun s => if ContainsAny s " \t" = true then Quote tbl s else s))
        (command.drop (n + 1)) command[n]
    rw [hl] at key
    rw [hd, ht, key, List.map_append, List.map_cons, List.map_nil, List.append_assoc,
      List.singleton_append]

theorem quoteArguments_eq_map (tbl : Char → Bool) (command : List String) :
    quoteArguments tbl command =
      command.map (fun s => if ContainsAny s " \t" = true then Quote tbl s else s) := by
  unfold quoteArguments
  rw [quoteArguments_fold tbl command command.length le_rfl]
  simp

theorem foldl_appendEscapedRune (tbl : Char → Bool) (l buf : List Char) :
    l.foldl (appendEscapedRune tbl) buf = buf ++ l.flatMap (escapedRune tbl) := by
  induction l generalizing buf with
  | nil => simp
  | cons c l ih => simp [ih, appendEscapedRune]

theorem Quote_data (tbl : Char → Bool) (s : String) :
    (Quote tbl s).data = '"' :: (s.data.flatMap (escapedRune tbl) ++ ['"']) := by
  simp [Quote, appendQuotedWith, foldl_appendEscapedRune]

theorem containsAny_space_tab (s : String) :
    ContainsAny s " \t" = true ↔ ' ' ∈ s.data ∨ '\t' ∈ s.data := by
  unfold ContainsAny
  rw [List.any_eq_true]
  constructor
  · rintro ⟨c, hc, h⟩
    have h2 : c = ' ' ∨ c = '\t' := by
      have : c ∈ " \t".data := by simpa using h
      simpa using this
    rcases h2 with rfl | rfl
    · exact Or.inl hc
    · exact Or.inr hc
  · rintro (h | h)
    · exact ⟨' ', h, by decide⟩
    · exact ⟨'\t', h, by decide⟩

/-- C9: `quoteArguments command` has the length of `command`; at every index the
output element is `command[i]` itself when that holds neither a space nor a tab,
and `strconv.Quote(command[i])` when it holds one.  The quoted form is a double
quote, the escaped runes of the element, a double quote; a tab is written as
backslash `t`, a double quote and a backslash are written with a backslash in
front. -/
theorem quoteArguments_spec (tbl : Char → Bool) (command : List String) :
    (quoteArguments tbl command).length = command.length ∧
    (∀ (i : Nat) (h : i < command.length),
      ((' ' ∉ command[i].data ∧ '\t' ∉ command[i].data) →
        (quoteArguments tbl command)[i]? = some command[i]) ∧
      ((' ' ∈ command[i].data ∨ '\t' ∈ command[i].data) →
        (quoteArguments tbl command)[i]? = some (Quote tbl command[i]))) ∧
    (∀ s : String,
      (Quote tbl s).data = '"' :: (s.data.flatMap (escapedRune tbl) ++ ['"'])) ∧
    escapedRune tbl '\t' = ['\\', 't'] ∧
    escapedRune tbl '"' = ['\\', '"'] ∧
    escapedRune tbl '\\' = ['\\', '\\'] ∧
    quoteArguments tbl ["run", "--label", "a b", "c\td", "say \"hi\"", "nginx"] =
      ["run", "--label", "\"a b\"", "\"c\\td\"", "\"say \\\"hi\\\"\"", "nginx"] := by
  refine ⟨?_, ?_, Quote_data tbl, rfl, rfl, rfl, rfl⟩
  · rw [quoteArguments_eq_map, List.length_map]
  · intro i h
    rw [quoteArguments_eq_map, List.getElem?_map, List.getElem?_eq_getElem h]
    constructor
    · intro hn
      have : ¬ ContainsAny command[i] " \t" = true := by
        rw [containsAny_space_tab]
        exact fun hc => hc.elim hn.1 hn.2
      simp [this]
    · intro hc
      have : ContainsAny command[i] " \t" = true := (containsAny_space_tab _).mpr hc
      simp [this]


theorem lowerhex_mem (n : Nat) : lowerhex n ∈ "0123456789abcdef".data := by
  unfold lowerhex
  by_cases h : n < 16
  · interval_cases n <;> decide
  · have h2 : "0123456789abcdef".data.length ≤ n := by
      have : "0123456789abcdef".data.length = 16 := by decide
      omega
    rw [List.getD_eq_default _ _ h2]
    decide

theorem lowerhex_plain (n : Nat) : lowerhex n ≠ '\\' ∧ lowerhex n ≠ '"' := by
  have h := lowerhex_mem n
  constructor
  · intro e
    rw [e] at h
    revert h
    decide
  · intro e
    rw [e] at h
    revert h
    decide

theorem splitQuotedLoop_plain (c : Char) (rest cur : List Char) (h1 : c ≠ '\\')
    (h2 : c ≠ '"') :
    splitQuotedLoop (c :: rest) cur true false = splitQuotedLoop rest (cur ++ [c]) true false := by
  simp [splitQuotedLoop, h1, h2]

theorem splitQuotedLoop_escape (c : Char) (rest cur : List Char) :
    splitQuotedLoop ('\\' :: c :: rest) cur true false =
      splitQuotedLoop rest (cur ++ ['\\', c]) true false := by
  simp [splitQuotedLoop]

theorem escapedRune_shape (tbl : Char → Bool) (r : Char) :
    (r ≠ '\\' ∧ r ≠ '"' ∧ escapedRune tbl r = [r]) ∨
    (∃ (c : Char) (t : List Char), escapedRune tbl r = '\\' :: c :: t ∧
      ∀ x ∈ t, x ≠ '\\' ∧ x ≠ '"') := by
  unfold escapedRune
  by_cases h1 : r = '"' ∨ r = '\\'
  · rw [if_pos h1]
    exact Or.inr ⟨r, [], rfl, by simp⟩
  rw [if_neg h1]
  by_cases h2 : IsPrint tbl r = true
  · rw [if_pos h2]
    exact Or.inl ⟨fun e => h1 (Or.inr e), fun e => h1 (Or.inl e), rfl⟩
  rw [if_neg h2]
  refine Or.inr ?_
  have hb := fun n => (lowerhex_plain n).1
  have hq := fun n => (lowerhex_plain n).2
  generalize hE : (if r = Char.ofNat 0x07 then ['\\', 'a'] else _) = E
  repeat' split at hE
  all_goals
    subst hE
    refine ⟨_, _, rfl, ?_⟩
    simp [hb, hq]

theorem splitQuotedLoop_plain_list (t rest cur : List Char)
    (h : ∀ x ∈ t, x ≠ '\\' ∧ x ≠ '"') :
    splitQuotedLoop (t ++ rest) cur true false = splitQuotedLoop rest (cur ++ t) true false := by
  induction t generalizing cur with
  | nil => simp
  | cons c t ih =>
    have hc := h c (List.mem_cons_self _ _)
    rw [List.cons_append, splitQuotedLoop_plain c _ _ hc.1 hc.2,
      ih _ (fun x hx => h x (List.mem_cons_of_mem _ hx))]
    simp

theorem splitQuotedLoop_escapedRune (tbl : Char → Bool) (r : Char) (rest cur : List Char) :
    splitQuotedLoop (escapedRune tbl r ++ rest) cur true false =
      splitQuotedLoop rest (cur ++ escapedRune tbl r) true false := by
  rcases escapedRune_shape tbl r with ⟨h1, h2, e⟩ | ⟨c, t, e, ht⟩
  · rw [e, List.singleton_append, splitQuotedLoop_plain r _ _ h1 h2]
  · rw [e, List.cons_append, List.cons_append, splitQuotedLoop_escape,
      splitQuotedLoop_plain_list t rest _ ht]
    simp

theorem splitQuotedLoop_flatMap (tbl : Char → Bool) (l rest cur : List Char) :
    splitQuotedLoop (l.flatMap (escapedRune tbl) ++ rest) cur true false =
      splitQuotedLoop rest (cur ++ l.flatMap (escapedRune tbl)) true false := by
  induction l generalizing cur with
  | nil => simp
  | cons r l ih =>
    rw [List.flatMap_cons, List.append_assoc, splitQuotedLoop_escapedRune, ih,
      List.append_assoc]

theorem splitQuoted_Quote (tbl : Char → Bool) (s : String) :
    splitQuoted (Quote tbl s) = [Quote tbl s] := by
  unfold splitQuoted
  rw [Quote_data]
  have h0 : splitQuotedLoop ('"' :: (s.data.flatMap (escapedRune tbl) ++ ['"'])) [] false false =
      splitQuotedLoop (s.data.flatMap (escapedRune tbl) ++ ['"']) ['"'] true false := by
    simp [splitQuotedLoop]
  rw [h0, splitQuotedLoop_flatMap]
  have h1 : splitQuotedLoop ['"'] (['"'] ++ s.data.flatMap (escapedRune tbl)) true false =
      [['"'] ++ s.data.flatMap (escapedRune tbl) ++ ['"']] := by
    simp [splitQuotedLoop]
  rw [h1]
  simp only [List.map_cons, List.map_nil, List.cons.injEq, and_true]
  apply String.ext
  rw [Quote_data]
  simp

/-- C10 (counterexample): split on every white space, the rendered command
`run --label "a b" nginx` has five tokens for every table, not four, and the
quoted form of "a b" is not a single token: the space inside the double quotes
is kept as it is. -/
theorem quoteArguments_fields_not_four :
    (¬ ∃ tbl : Char → Bool,
      (Fields (joinSpaces (quoteArguments tbl ["run", "--label", "a b", "nginx"]))).length = 4) ∧
    (¬ ∃ tbl : Char → Bool, (Fields (Quote tbl "a b")).length = 1) := by
  constructor
  · rintro ⟨tbl, h⟩
    have e : Fields (joinSpaces (quoteArguments tbl ["run", "--label", "a b", "nginx"])) =
        ["run", "--label", "\"a", "b\"", "nginx"] := rfl
    rw [e] at h
    exact absurd h (by decide)
  · rintro ⟨tbl, h⟩
    have e : Fields (Quote tbl "a b") = ["\"a", "b\""] := rfl
    rw [e] at h
    exact absurd h (by decide)

/-- C10 (amended): for the command `run`, `--label`, `a b`, `nginx`, joining
`quoteArguments command` with single spaces and splitting the text again on the
white space outside double quotes gives back exactly the four rendered
elements, one for each original element; and the quoted form of every element
(so of every element holding a space or a tab) is a single token under that
splitting.  Split on every white space the same text has five tokens. -/
theorem quoteArguments_resplit (tbl : Char → Bool) :
    splitQuoted (joinSpaces (quoteArguments tbl ["run", "--label", "a b", "nginx"])) =
      quoteArguments tbl ["run", "--label", "a b", "nginx"] ∧
    quoteArguments tbl ["run", "--label", "a b", "nginx"] =
      ["run", "--label", "\"a b\"", "nginx"] ∧
    (splitQuoted (joinSpaces (quoteArguments tbl ["run", "--label", "a b", "nginx"]))).length = 4 ∧
    (∀ s : String, splitQuoted (Quote tbl s) = [Quote tbl s]) ∧
    Fields (joinSpaces (quoteArguments tbl ["run", "--label", "a b", "nginx"])) =
      ["run", "--label", "\"a", "b\"", "nginx"] :=
  ⟨rfl, rfl, rfl, splitQuoted_Quote tbl, rfl⟩



theorem generateHeaderTemplate_noHeader (o : GenerateSystemdOptions) (h : o.NoHeader = true) :
    generateHeaderTemplate o = serviceHeader ++ "\n" ++ unitHeader := by
  simp [generateHeaderTemplate, h]

theorem generateHeaderTemplate_header (o : GenerateSystemdOptions) (h : o.NoHeader = false) :
    generateHeaderTemplate o = serviceHeader ++ infoHeader ++ "\n" ++ unitHeader := by
  simp [generateHeaderTemplate, h]

/-- C11: the text returned by `generateHeaderTemplate options` contains the
substring "autogenerated" if and only if `options.NoHeader` is false. -/
theorem generateHeaderTemplate_autogenerated (o : GenerateSystemdOptions) :
    Contains (generateHeaderTemplate o) "autogenerated" = true ↔ o.NoHeader = false := by
  cases h : o.NoHeader
  · rw [generateHeaderTemplate_header o h]
    exact ⟨fun _ => rfl, fun _ => by decide⟩
  · rw [generateHeaderTemplate_noHeader o h]
    exact ⟨fun e => absurd e (by decide), fun e => absurd e (by decide)⟩

set_option maxRecDepth 8000 in
/-- C12: `generateHeaderTemplate options` is, in this order, the service-name
comment line, the info block when `NoHeader` is false and nothing when it is
true, one newline, and the unit block; the unit block is the five lines
`[Unit]`, `Description=Podman <ServiceName placeholder>.service`,
`Documentation=man:podman-generate-systemd(1)`, `Wants=network.target`,
`After=network-online.target`, each ended by a newline.  So the text always
starts with the service-name line and always ends with the unit block. -/
theorem generateHeaderTemplate_layout (o : GenerateSystemdOptions) :
    generateHeaderTemplate o =
      serviceHeader ++ (if o.NoHeader = true then "" else infoHeader) ++ "\n" ++ unitHeader ∧
    serviceHeader = "# \x7b\x7b\x7b\x7b.ServiceName\x7d\x7d\x7d\x7d.service\n" ∧
    unitHeader = String.join (List.map (fun l => l ++ "\n")
      ["[Unit]",
       "Description=Podman \x7b\x7b\x7b\x7b.ServiceName\x7d\x7d\x7d\x7d.service",
       "Documentation=man:podman-generate-systemd(1)",
       "Wants=network.target",
       "After=network-online.target"]) ∧
    HasPrefix (generateHeaderTemplate o) serviceHeader = true ∧
    HasSuffix (generateHeaderTemplate o) unitHeader = true := by
  cases h : o.NoHeader
  · rw [generateHeaderTemplate_header o h]
    exact ⟨rfl, by decide, by decide, by decide, by decide⟩
  · rw [generateHeaderTemplate_noHeader o h]
    exact ⟨rfl, by decide, by decide, by decide, by decide⟩

/-- C13: with `NoHeader = true` the text returned by `generateHeaderTemplate`
contains neither "PodmanVersion" nor "TimeStamp", and every other options value
with `NoHeader = true` gives the same text, whatever its other fields. -/
theorem generateHeaderTemplate_noHeader_fixed (o : GenerateSystemdOptions)
    (h : o.NoHeader = true) :
    Contains (generateHeaderTemplate o) "PodmanVersion" = false ∧
    Contains (generateHeaderTemplate o) "TimeStamp" = false ∧
    ∀ o2 : GenerateSystemdOptions, o2.NoHeader = true →
      generateHeaderTemplate o2 = generateHeaderTemplate o := by
  refine ⟨?_, ?_, fun o2 h2 => ?_⟩
  · rw [generateHeaderTemplate_noHeader o h]
    decide
  · rw [generateHeaderTemplate_noHeader o h]
    decide
  · rw [generateHeaderTemplate_noHeader o h, generateHeaderTemplate_noHeader o2 h2]

/-- C13 at two options values that differ in every field but `NoHeader`. -/
theorem generateHeaderTemplate_noHeader_fixed_witness :
    Contains (generateHeaderTemplate ⟨false, false, "no", 10, "container", "pod", "-", true⟩)
      "PodmanVersion" = false ∧
    Contains (generateHeaderTemplate ⟨false, false, "no", 10, "container", "pod", "-", true⟩)
      "TimeStamp" = false ∧
    generateHeaderTemplate ⟨true, true, "always", 60, "c", "p", "_", true⟩ =
      generateHeaderTemplate ⟨false, false, "no", 10, "container", "pod", "-", true⟩ :=
  have h := generateHeaderTemplate_noHeader_fixed
    ⟨false, false, "no", 10, "container", "pod", "-", true⟩ rfl
  ⟨h.1, h.2.1, h.2.2 ⟨true, true, "always", 60, "c", "p", "_", true⟩ rfl⟩

theorem removeDetachArg_append (F R : List String) :
    removeDetachArg (F ++ R) (R.length : Int) =
      some (F.filter (fun a => decide (a ≠ "-d=false" ∧ a ≠ "--detach=false")) ++ R) := by
  have h0 : (0 : Int) ≤ (R.length : Int) := Int.ofNat_nonneg _
  have h1 : (R.length : Int) ≤ ((F ++ R).length : Int) := by
    rw [List.length_append]
    omega
  have hk : (F ++ R).length - (R.length : Int).toNat = F.length := by
    rw [List.length_append]
    omega
  simp only [removeDetachArg, sliceFrom_split (F ++ R) R.length h0 h1,
    sliceTo_split (F ++ R) R.length h0 h1, removeArg_eq_filter, List.filter_filter,
    Option.bind_eq_bind, Option.some_bind, Option.pure_def, hk, List.take_left',
    List.drop_left']
  congr 3
  funext a
  simp [and_comm]

theorem removeReplaceArg_append (F R : List String) :
    removeReplaceArg (F ++ R) (R.length : Int) =
      some (F.filter (fun a => decide (a ≠ "--replace=false")) ++ R) := by
  have h0 : (0 : Int) ≤ (R.length : Int) := Int.ofNat_nonneg _
  have h1 : (R.length : Int) ≤ ((F ++ R).length : Int) := by
    rw [List.length_append]
    omega
  have hk : (F ++ R).length - (R.length : Int).toNat = F.length := by
    rw [List.length_append]
    omega
  simp only [removeReplaceArg, sliceFrom_split (F ++ R) R.length h0 h1,
    sliceTo_split (F ++ R) R.length h0 h1, removeArg_eq_filter,
    Option.bind_eq_bind, Option.some_bind, Option.pure_def, hk, List.take_left',
    List.drop_left']

theorem split_at_argCount (args : List String) (argCount : Int) (h0 : 0 ≤ argCount)
    (h1 : argCount ≤ (args.length : Int)) :
    ∃ F R : List String, args = F ++ R ∧ (R.length : Int) = argCount ∧
      R = args.drop (args.length - argCount.toNat) := by
  refine ⟨args.take (args.length - argCount.toNat), args.drop (args.length - argCount.toNat),
    (List.take_append_drop _ _).symm, ?_, rfl⟩
  rw [List.length_drop]
  omega

theorem sliceFrom_out_of_range (args : List String) (argCount : Int)
    (h : ¬ (0 ≤ argCount ∧ argCount ≤ (args.length : Int))) :
    sliceFrom args ((args.length : Int) - argCount) = none := by
  have c : ¬ (0 ≤ (args.length : Int) - argCount ∧
      (args.length : Int) - argCount ≤ (args.length : Int)) := by omega
  simp only [sliceFrom, if_neg c]

theorem removeDetachArg_isSome_iff (args : List String) (argCount : Int) :
    (removeDetachArg args argCount).isSome = true ↔
      (0 ≤ argCount ∧ argCount ≤ (args.length : Int)) := by
  by_cases h : 0 ≤ argCount ∧ argCount ≤ (args.length : Int)
  · obtain ⟨F, R, rfl, rfl, -⟩ := split_at_argCount args argCount h.1 h.2
    simp [removeDetachArg_append, h]
  · simp [removeDetachArg, sliceFrom_out_of_range args argCount h, h]

theorem removeReplaceArg_isSome_iff (args : List String) (argCount : Int) :
    (removeReplaceArg args argCount).isSome = true ↔
      (0 ≤ argCount ∧ argCount ≤ (args.length : Int)) := by
  by_cases h : 0 ≤ argCount ∧ argCount ≤ (args.length : Int)
  · obtain ⟨F, R, rfl, rfl, -⟩ := split_at_argCount args argCount h.1 h.2
    simp [removeReplaceArg_append, h]
  · simp [removeReplaceArg, sliceFrom_out_of_range args argCount h, h]

/-- C15: `removeDetachArg args argCount` and `removeReplaceArg args argCount` return a
list exactly when the split index `len(args) - argCount` lies in `[0, len(args)]`.
So they return one whenever `0 <= argCount <= len(args)`, and when `argCount`
exceeds `len(args)` the slice expression is out of range and nothing is
returned, also no truncated list. -/
theorem removeArgs_succeed_iff (args : List String) (argCount : Int) :
    ((removeDetachArg args argCount).isSome = true ↔
      (0 ≤ (args.length : Int) - argCount ∧
        (args.length : Int) - argCount ≤ (args.length : Int))) ∧
    ((removeReplaceArg args argCount).isSome = true ↔
      (0 ≤ (args.length : Int) - argCount ∧
        (args.length : Int) - argCount ≤ (args.length : Int))) ∧
    ((args.length : Int) < argCount →
      removeDetachArg args argCount = none ∧ removeReplaceArg args argCount = none) ∧
    (0 ≤ argCount → argCount ≤ (args.length : Int) →
      (∃ r, removeDetachArg args argCount = some r) ∧
      (∃ r, removeReplaceArg args argCount = some r)) ∧
    removeDetachArg ["run", "alpine"] 3 = none ∧
    removeReplaceArg ["run", "alpine"] 3 = none := by
  refine ⟨?_, ?_, ?_, ?_, by decide, by decide⟩
  · rw [removeDetachArg_isSome_iff]
    omega
  · rw [removeReplaceArg_isSome_iff]
    omega
  · intro h
    have hn : ¬ (0 ≤ argCount ∧ argCount ≤ (args.length : Int)) := by omega
    simp [removeDetachArg, removeReplaceArg, sliceFrom_out_of_range args argCount hn]
  · intro h0 h1
    exact ⟨Option.isSome_iff_exists.mp ((removeDetachArg_isSome_iff args argCount).mpr ⟨h0, h1⟩),
      Option.isSome_iff_exists.mp ((removeReplaceArg_isSome_iff args argCount).mpr ⟨h0, h1⟩)⟩

theorem length_filter_append (p : String → Bool) (F R : List String) :
    (F.filter p ++ R).length - R.length = (F.filter p).length := by
  rw [List.length_append]
  omega

theorem drop_filter_append (p : String → Bool) (F R : List String) :
    (F.filter p ++ R).drop ((F.filter p ++ R).length - R.length) = R := by
  rw [length_filter_append, List.drop_left']
  rfl

/-- C16 (the code at a failing input, and the part of the claim that holds): on the
command `run --name c1 alpine sh --pod x`, whose last three elements are the
entrypoint `sh --pod x`, `filterPodFlags` drops the entrypoint tokens `--pod`
and `x`, so the last three elements of its result are not the last three of
the command; on `--pod x` alone it leaves no element at all.
`removeDetachArg` and `removeReplaceArg` do keep the last `argCount` elements for
every `0 <= argCount <= len(args)`. -/
theorem entrypoint_boundary :
    filterPodFlags ["run", "--name", "c1", "alpine", "sh", "--pod", "x"] =
      ["run", "--name", "c1", "alpine", "sh"] ∧
    (filterPodFlags ["run", "--name", "c1", "alpine", "sh", "--pod", "x"]).drop (5 - 3) ≠
      ["run", "--name", "c1", "alpine", "sh", "--pod", "x"].drop (7 - 3) ∧
    (filterPodFlags ["--pod", "x"]).length < 2 ∧
    (∀ (args : List String) (argCount : Int), 0 ≤ argCount → argCount ≤ (args.length : Int) →
      ∃ r, removeDetachArg args argCount = some r ∧ argCount ≤ (r.length : Int) ∧
        r.drop (r.length - argCount.toNat) = args.drop (args.length - argCount.toNat)) ∧
    (∀ (args : List String) (argCount : Int), 0 ≤ argCount → argCount ≤ (args.length : Int) →
      ∃ r, removeReplaceArg args argCount = some r ∧ argCount ≤ (r.length : Int) ∧
        r.drop (r.length - argCount.toNat) = args.drop (args.length - argCount.toNat)) := by
  refine ⟨by decide, by decide, by decide, ?_, ?_⟩
  · intro args argCount h0 h1
    obtain ⟨F, R, rfl, rfl, hR⟩ := split_at_argCount args argCount h0 h1
    refine ⟨_, removeDetachArg_append F R, ?_, ?_⟩
    · rw [List.length_append]
      omega
    · rw [← hR, Int.toNat_ofNat, drop_filter_append]
  · intro args argCount h0 h1
    obtain ⟨F, R, rfl, rfl, hR⟩ := split_at_argCount args argCount h0 h1
    refine ⟨_, removeReplaceArg_append F R, ?_, ?_⟩
    · rw [List.length_append]
      omega
    · rw [← hR, Int.toNat_ofNat, drop_filter_append]

/-- C20: for `0 <= argCount <= len(args)` the detach and the replace stage commute
at the same `argCount`, each of them is idempotent, and no second call fails:
the first call returns a list with at least `argCount` elements. -/
theorem removeDetach_removeReplace_commute (args : List String) (argCount : Int)
    (h0 : 0 ≤ argCount) (h1 : argCount ≤ (args.length : Int)) :
    ((removeDetachArg args argCount).bind (fun r => removeReplaceArg r argCount) =
      (removeReplaceArg args argCount).bind (fun r => removeDetachArg r argCount)) ∧
    ((removeDetachArg args argCount).bind (fun r => removeReplaceArg r argCount)).isSome = true ∧
    ((removeDetachArg args argCount).bind (fun r => removeDetachArg r argCount) =
      removeDetachArg args argCount) ∧
    ((removeReplaceArg args argCount).bind (fun r => removeReplaceArg r argCount) =
      removeReplaceArg args argCount) ∧
    (removeDetachArg args argCount).isSome = true ∧
    (removeReplaceArg args argCount).isSome = true ∧
    (∀ r, removeDetachArg args argCount = some r → argCount ≤ (r.length : Int)) ∧
    (∀ r, removeReplaceArg args argCount = some r → argCount ≤ (r.length : Int)) := by
  obtain ⟨F, R, rfl, rfl, -⟩ := split_at_argCount args argCount h0 h1
  simp only [removeDetachArg_append, removeReplaceArg_append, Option.some_bind,
    Option.isSome_some, List.filter_filter, Option.some.injEq, true_and]
  refine ⟨?_, ?_, ?_, ?_, ?_⟩
  · congr 2
    funext a
    exact Bool.and_comm _ _
  · congr 2
    funext a
    simp
  · congr 2
    funext a
    simp
  · rintro r rfl
    rw [List.length_append]
    omega
  · rintro r rfl
    rw [List.length_append]
    omega

/-- C20 at a command with all three flags among the flags and among the last two
elements. -/
theorem removeDetach_removeReplace_commute_witness :
    (removeDetachArg ["run", "-d=false", "--replace=false", "--detach=false", "img",
        "-d=false", "--replace=false"] 2).bind (fun r => removeReplaceArg r 2) =
      some ["run", "img", "-d=false", "--replace=false"] ∧
    (removeReplaceArg ["run", "-d=false", "--replace=false", "--detach=false", "img",
        "-d=false", "--replace=false"] 2).bind (fun r => removeDetachArg r 2) =
      some ["run", "img", "-d=false", "--replace=false"] :=
  have h := removeDetach_removeReplace_commute ["run", "-d=false", "--replace=false",
    "--detach=false", "img", "-d=false", "--replace=false"] 2 (by decide) (by decide)
  ⟨by decide, h.1 ▸ (by decide)⟩

theorem filterPodFlagsChecked_eq (command : List String) :
    ∀ (fuel i : Nat) (processed : List String), 0 < fuel → command.length + 1 ≤ i + fuel →
      filterPodFlagsChecked command fuel i processed =
        some (filterPodFlagsLoop (command.drop i) processed) := by
  intro fuel
  induction fuel with
  | zero => intro i processed h; omega
  | succ fuel ih =>
    intro i processed _ hle
    unfold filterPodFlagsChecked
    by_cases hi : i < command.length
    · have hd : command.drop i = command[i] :: command.drop (i + 1) :=
        List.drop_eq_getElem_cons hi
      have hf : 0 < fuel := by omega
      rw [if_pos hi, List.getElem?_eq_getElem hi, hd, filterPodFlagsLoop_cons]
      simp only [List.drop_drop]
      split_ifs with h1 h2
      · rw [ih (i + 1 + 1) processed hf (by omega)]
      · exact ih (i + 1) processed hf (by omega)
      · exact ih (i + 1) _ hf (by omega)
    · rw [if_neg hi, List.drop_eq_nil_of_le (by omega)]
      rfl

theorem quoteArgumentsStepChecked_eq (tbl : Char → Bool) (command : List String) (i : Nat)
    (h : i < command.length) :
    quoteArgumentsStepChecked tbl command i = some (quoteArgumentsStep tbl command i) := by
  unfold quoteArgumentsStepChecked quoteArgumentsStep
  have hg : command.getD i "" = command[i] := by
    rw [List.getD_eq_getElem?_getD, List.getElem?_eq_getElem h]
    rfl
  rw [List.getElem?_eq_getElem h, hg]
  simp only [h, if_true]
  split_ifs <;> rfl

theorem quoteArguments_fold_length (tbl : Char → Bool) (command : List String) (n : Nat)
    (h : n ≤ command.length) :
    ((List.range n).foldl (quoteArgumentsStep tbl) command).length = command.length := by
  rw [quoteArguments_fold tbl command n h, List.length_append, List.length_map,
    List.length_take, List.length_drop]
  omega

theorem quoteArgumentsChecked_fold (tbl : Char → Bool) (command : List String) :
    ∀ n : Nat, n ≤ command.length →
      (List.range n).foldlM (quoteArgumentsStepChecked tbl) command =
        some ((List.range n).foldl (quoteArgumentsStep tbl) command) := by
  intro n
  induction n with
  | zero => intro _; rfl
  | succ n ih =>
    intro hn
    have hl := quoteArguments_fold_length tbl command n (by omega)
    rw [List.range_succ, List.foldlM_append, ih (by omega), List.foldl_append]
    simp only [Option.bind_eq_bind, Option.some_bind, List.foldlM_cons, List.foldlM_nil,
      List.foldl_cons, List.foldl_nil]
    rw [quoteArgumentsStepChecked_eq tbl _ n (by omega)]
    rfl

/-- C14 (counterexample): `removeDetachArg` and `removeReplaceArg` do not return a
list for the one-element command `run` and `argCount = 2`: the slice expression
`args[len(args)-argCount:]` has the index `-1`. -/
theorem removeArgs_not_total :
    removeDetachArg ["run"] 2 = none ∧ removeReplaceArg ["run"] 2 = none := by
  decide

/-- C14 (amended): `filterPodFlags` and `quoteArguments` are total: for every input
list, the empty one included, the loop reads no index out of range and a list
is returned.  `removeDetachArg` and `removeReplaceArg` return a list for every
list exactly when `0 <= argCount <= len(args)`, so also for the empty list
with `argCount = 0`. -/
theorem transforms_total (tbl : Char → Bool) (command : List String) :
    filterPodFlagsChecked command (command.length + 1) 0 [] = some (filterPodFlags command) ∧
    quoteArgumentsChecked tbl command = some (quoteArguments tbl command) ∧
    (∀ argCount : Int, (removeDetachArg command argCount).isSome = true ↔
      (0 ≤ argCount ∧ argCount ≤ (command.length : Int))) ∧
    (∀ argCount : Int, (removeReplaceArg command argCount).isSome = true ↔
      (0 ≤ argCount ∧ argCount ≤ (command.length : Int))) ∧
    filterPodFlags [] = [] ∧
    quoteArguments tbl [] = [] ∧
    removeDetachArg [] 0 = some [] ∧
    removeReplaceArg [] 0 = some [] := by
  refine ⟨?_, ?_, removeDetachArg_isSome_iff command, removeReplaceArg_isSome_iff command,
    rfl, rfl, by decide, by decide⟩
  · rw [filterPodFlagsChecked_eq command _ 0 [] (by omega) (by omega)]
    rfl
  · exact quoteArgumentsChecked_fold tbl command command.length le_rfl

/-- C17 (counterexample): on `run --pod "my pod" nginx` quoting before pod-flag
filtering gives the same result as the specified order, for every table:
quoting leaves `--pod` and the number of tokens as they are, and the value
token is dropped unread. -/
theorem quote_then_filter_two_token_same :
    ¬ ∃ tbl : Char → Bool,
      filterPodFlags (quoteArguments tbl ["run", "--pod", "my pod", "nginx"]) ≠
        quoteArguments tbl (filterPodFlags ["run", "--pod", "my pod", "nginx"]) := by
  rintro ⟨tbl, h⟩
  have q2 : quoteArguments tbl ["run", "--pod", "my pod", "nginx"] =
      ["run", "--pod", "\"my pod\"", "nginx"] := rfl
  have f2 : filterPodFlags ["run", "--pod", "my pod", "nginx"] = ["run", "nginx"] := by decide
  have q3 : quoteArguments tbl ["run", "nginx"] = ["run", "nginx"] := rfl
  rw [q2, f2, q3] at h
  exact h (by decide)

/-- C17 (amended): the order of quoting and pod-flag filtering matters for the
single-token pod flag.  On `run --pod=my pod nginx` (three elements) quoting
first wraps the flag token in double quotes, so it no longer starts with
`--pod=` and `filterPodFlags` keeps it, while the specified order drops it.  On
the two-token input `run --pod "my pod" nginx` both orders give `run nginx`. -/
theorem quote_then_filter_single_token_differs (tbl : Char → Bool) :
    filterPodFlags (quoteArguments tbl ["run", "--pod=my pod", "nginx"]) =
      ["run", "\"--pod=my pod\"", "nginx"] ∧
    quoteArguments tbl (filterPodFlags ["run", "--pod=my pod", "nginx"]) = ["run", "nginx"] ∧
    filterPodFlags (quoteArguments tbl ["run", "--pod=my pod", "nginx"]) ≠
      quoteArguments tbl (filterPodFlags ["run", "--pod=my pod", "nginx"]) ∧
    filterPodFlags (quoteArguments tbl ["run", "--pod", "my pod", "nginx"]) = ["run", "nginx"] ∧
    quoteArguments tbl (filterPodFlags ["run", "--pod", "my pod", "nginx"]) = ["run", "nginx"] := by
  have q1 : quoteArguments tbl ["run", "--pod=my pod", "nginx"] =
      ["run", "\"--pod=my pod\"", "nginx"] := rfl
  have f1 : filterPodFlags ["run", "--pod=my pod", "nginx"] = ["run", "nginx"] := by decide
  have q2 : quoteArguments tbl ["run", "--pod", "my pod", "nginx"] =
      ["run", "--pod", "\"my pod\"", "nginx"] := rfl
  have f2 : filterPodFlags ["run", "--pod", "my pod", "nginx"] = ["run", "nginx"] := by decide
  have q3 : quoteArguments tbl ["run", "nginx"] = ["run", "nginx"] := rfl
  have e1 : filterPodFlags (quoteArguments tbl ["run", "--pod=my pod", "nginx"]) =
      ["run", "\"--pod=my pod\"", "nginx"] := by
    rw [q1]
    decide
  have e2 : quoteArguments tbl (filterPodFlags ["run", "--pod=my pod", "nginx"]) =
      ["run", "nginx"] := by
    rw [f1, q3]
  refine ⟨e1, e2, ?_, by rw [q2]; decide, by rw [f2, q3]⟩
  rw [e1, e2]
  decide

theorem quoteArgumentsCell_apply (tbl : Char → Bool) (command : Slice) (m : Nat → String)
    (i a : Nat) :
    quoteArgumentsCell tbl command m i a =
      if a = command.ptr + i then
        (if ContainsAny (m a) " \t" = true then Quote tbl (m a) else m a)
      else m a := by
  unfold quoteArgumentsCell
  by_cases ha : a = command.ptr + i
  · subst ha
    rw [if_pos rfl]
    split_ifs
    · exact Function.update_same _ _ _
    · rfl
  · rw [if_neg ha]
    split_ifs
    · exact Function.update_noteq ha _ _
    · rfl

theorem quoteArgumentsCell_fold (tbl : Char → Bool) (command : Slice) (mem : Nat → String) :
    ∀ (n a : Nat), (List.range n).foldl (quoteArgumentsCell tbl command) mem a =
      if command.ptr ≤ a ∧ a < command.ptr + n then
        (if ContainsAny (mem a) " \t" = true then Quote tbl (mem a) else mem a)
      else mem a := by
  intro n
  induction n with
  | zero =>
    intro a
    rw [if_neg (by omega)]
    rfl
  | succ n ih =>
    intro a
    rw [List.range_succ, List.foldl_append, List.foldl_cons, List.foldl_nil,
      quoteArgumentsCell_apply]
    simp only [ih]
    by_cases ha : a = command.ptr + n
    · subst ha
      have h1 : ¬ (command.ptr ≤ command.ptr + n ∧ command.ptr + n < command.ptr + n) := by
        omega
      have h2 : command.ptr ≤ command.ptr + n ∧ command.ptr + n < command.ptr + (n + 1) := by
        omega
      simp only [if_neg h1, if_pos h2, if_true]
    · by_cases hr : command.ptr ≤ a ∧ a < command.ptr + n
      · have h2 : command.ptr ≤ a ∧ a < command.ptr + (n + 1) := by omega
        simp only [if_neg ha, if_pos hr, if_pos h2]
      · have h2 : ¬ (command.ptr ≤ a ∧ a < command.ptr + (n + 1)) := by omega
        simp only [if_neg ha, if_neg hr, if_neg h2]

theorem readSlice_quoteArgumentsMem (tbl : Char → Bool) (mem : Nat → String) (command : Slice) :
    readSlice (quoteArgumentsMem tbl mem command).1 command =
      quoteArguments tbl (readSlice mem command) := by
  rw [quoteArguments_eq_map]
  unfold readSlice quoteArgumentsMem
  rw [List.map_map]
  apply List.map_congr_left
  intro i hi
  have hi2 : i < command.len := List.mem_range.mp hi
  have hr : command.ptr ≤ command.ptr + i ∧ command.ptr + i < command.ptr + command.len := by
    omega
  simp only [Function.comp]
  rw [quoteArgumentsCell_fold, if_pos hr]

/-- C18 (counterexample): the caller's list `run`, `a b` does not hold its original
elements after `quoteArguments`: for every table its second element has been
overwritten with the quoted form. -/
theorem quoteArguments_overwrites_caller :
    ¬ ∃ tbl : Char → Bool,
      readSlice (quoteArgumentsMem tbl (memOf ["run", "a b"]) ⟨0, 2⟩).1 ⟨0, 2⟩ =
        readSlice (memOf ["run", "a b"]) ⟨0, 2⟩ := by
  rintro ⟨tbl, h⟩
  rw [readSlice_quoteArgumentsMem] at h
  have e1 : readSlice (memOf ["run", "a b"]) ⟨0, 2⟩ = ["run", "a b"] := rfl
  have e2 : quoteArguments tbl ["run", "a b"] = ["run", "\"a b\""] := rfl
  rw [e1, e2] at h
  exact absurd h (by decide)

/-- C18 (amended): `quoteArguments` works in place.  It returns the slice it was
given, and after the call the caller's list holds the same elements as the
returned list: every element holding a space or a tab has been overwritten
with its quoted form and the others are unchanged.  No memory outside the
cells of the list is written. -/
theorem quoteArguments_in_place (tbl : Char → Bool) (mem : Nat → String) (command : Slice) :
    (quoteArgumentsMem tbl mem command).2 = command ∧
    readSlice (quoteArgumentsMem tbl mem command).1 command =
      quoteArguments tbl (readSlice mem command) ∧
    readSlice (quoteArgumentsMem tbl mem command).1 (quoteArgumentsMem tbl mem command).2 =
      readSlice (quoteArgumentsMem tbl mem command).1 command ∧
    quoteArguments tbl (readSlice mem command) =
      (readSlice mem command).map
        (fun s => if ContainsAny s " \t" = true then Quote tbl s else s) ∧
    (∀ a : Nat, ¬ (command.ptr ≤ a ∧ a < command.ptr + command.len) →
      (quoteArgumentsMem tbl mem command).1 a = mem a) ∧
    readSlice (memOf ["run", "a b"]) ⟨0, 2⟩ = ["run", "a b"] ∧
    readSlice (quoteArgumentsMem tbl (memOf ["run", "a b"]) ⟨0, 2⟩).1 ⟨0, 2⟩ =
      ["run", "\"a b\""] := by
  refine ⟨rfl, readSlice_quoteArgumentsMem tbl mem command, rfl,
    quoteArguments_eq_map tbl _, ?_, rfl, ?_⟩
  · intro a ha
    unfold quoteArgumentsMem
    simp only
    rw [quoteArgumentsCell_fold, if_neg ha]
  · rw [readSlice_quoteArgumentsMem]
    rfl

theorem keepMasked_cons_true (s : String) (l : List String) (m : List Bool) :
    keepMasked (s :: l) (true :: m) = s :: keepMasked l m := by
  simp [keepMasked]

theorem keepMasked_cons_false (s : String) (l : List String) (m : List Bool) :
    keepMasked (s :: l) (false :: m) = keepMasked l m := by
  simp [keepMasked]

theorem dropsOnly_cons (s : String) (l : List String) (b : Bool) (m : List Bool)
    (hs : b = false → isPodFlag s = true) (h : DropsOnlyPodFlags l m) :
    DropsOnlyPodFlags (s :: l) (b :: m) := by
  intro i x hx hm
  cases i with
  | zero =>
    simp only [List.getElem?_cons_zero, Option.some.injEq] at hx hm
    subst hx
    exact Or.inl (hs hm)
  | succ k =>
    simp only [List.getElem?_cons_succ] at hx hm
    rcases h k x hx hm with hf | ⟨j, rfl, hj⟩
    · exact Or.inl hf
    · exact Or.inr ⟨j + 1, rfl, by simpa only [List.getElem?_cons_succ] using hj⟩

theorem dropsOnly_pair (s v : String) (l : List String) (m : List Bool)
    (hs : s = "--pod" ∨ s = "--pod-id-file") (h : DropsOnlyPodFlags l m) :
    DropsOnlyPodFlags (s :: v :: l) (false :: false :: m) := by
  intro i x hx hm
  cases i with
  | zero =>
    simp only [List.getElem?_cons_zero, Option.some.injEq] at hx
    subst hx
    left
    simp [isPodFlag, hs]
  | succ k =>
    cases k with
    | zero =>
      right
      refine ⟨0, rfl, ?_⟩
      simp only [List.getElem?_cons_zero, Option.some.injEq]
      exact hs
    | succ k =>
      simp only [List.getElem?_cons_succ] at hx hm
      rcases h k x hx hm with hf | ⟨j, rfl, hj⟩
      · exact Or.inl hf
      · exact Or.inr ⟨j + 1 + 1, rfl, by simpa only [List.getElem?_cons_succ] using hj⟩

theorem filterPodFlags_mask (n : Nat) : ∀ l : List String, l.length ≤ n →
    ∃ mask : List Bool, mask.length = l.length ∧ keepMasked l mask = filterPodFlags l ∧
      DropsOnlyPodFlags l mask := by
  induction n with
  | zero =>
    intro l hl
    have : l = [] := List.length_eq_zero.mp (Nat.le_zero.mp hl)
    subst this
    exact ⟨[], rfl, rfl, fun i x hx => by simp at hx⟩
  | succ n ih =>
    intro l hl
    cases l with
    | nil => exact ⟨[], rfl, rfl, fun i x hx => by simp at hx⟩
    | cons s rest =>
      have hr : rest.length ≤ n := by simpa using hl
      rw [filterPodFlags_cons]
      split_ifs with h1 h2
      · cases rest with
        | nil =>
          refine ⟨[false], rfl, rfl, ?_⟩
          exact dropsOnly_cons s [] false [] (fun _ => by simp [isPodFlag, h1])
            (fun i x hx => by simp at hx)
        | cons v rest2 =>
          obtain ⟨m, hm1, hm2, hm3⟩ := ih rest2 (by simp at hr; omega)
          refine ⟨false :: false :: m, by simp [hm1], ?_, dropsOnly_pair s v rest2 m h1 hm3⟩
          rw [keepMasked_cons_false, keepMasked_cons_false, hm2]
          rfl
      · obtain ⟨m, hm1, hm2, hm3⟩ := ih rest hr
        refine ⟨false :: m, by simp [hm1], ?_, ?_⟩
        · rw [keepMasked_cons_false, hm2]
        · exact dropsOnly_cons s rest false m (fun _ => by
            simp only [isPodFlag, Bool.or_eq_true]
            exact Or.inr (by simpa using h2)) hm3
      · obtain ⟨m, hm1, hm2, hm3⟩ := ih rest hr
        refine ⟨true :: m, by simp [hm1], ?_, ?_⟩
        · rw [keepMasked_cons_true, hm2]
        · exact dropsOnly_cons s rest true m (fun e => by simp at e) hm3

theorem filterPodFlags_sublist (n : Nat) : ∀ l : List String, l.length ≤ n →
    List.Sublist (filterPodFlags l) l := by
  induction n with
  | zero =>
    intro l hl
    have : l = [] := List.length_eq_zero.mp (Nat.le_zero.mp hl)
    subst this
    exact List.Sublist.refl _
  | succ n ih =>
    intro l hl
    cases l with
    | nil => exact List.Sublist.refl _
    | cons s rest =>
      have hr : rest.length ≤ n := by simpa using hl
      rw [filterPodFlags_cons]
      split_ifs with h1 h2
      · exact ((ih (rest.drop 1) (by simp; omega)).trans (List.drop_sublist 1 rest)).trans
          (List.sublist_cons_self s rest)
      · exact (ih rest hr).trans (List.sublist_cons_self s rest)
      · exact (ih rest hr).cons₂ s

/-- C19: `filterPodFlags command` is a subsequence of `command`; it holds no element
equal to "--pod" or "--pod-id-file" and none starting with "--pod=" or
"--pod-id-file="; and it is `command` without some positions, each of which
holds such a pod flag or comes right after a "--pod" or "--pod-id-file"
token. -/
theorem filterPodFlags_drops_only_pod_flags (command : List String) :
    List.Sublist (filterPodFlags command) command ∧
    (∀ x ∈ filterPodFlags command,
      x ≠ "--pod" ∧ x ≠ "--pod-id-file" ∧
        HasPrefix x "--pod=" = false ∧ HasPrefix x "--pod-id-file=" = false) ∧
    ∃ mask : List Bool, mask.length = command.length ∧
      keepMasked command mask = filterPodFlags command ∧
      ∀ (i : Nat) (x : String), command[i]? = some x → mask[i]? = some false →
        ((x = "--pod" ∨ x = "--pod-id-file" ∨
            HasPrefix x "--pod=" = true ∨ HasPrefix x "--pod-id-file=" = true) ∨
          ∃ j : Nat, i = j + 1 ∧
            (command[j]? = some "--pod" ∨ command[j]? = some "--pod-id-file")) := by
  refine ⟨filterPodFlags_sublist command.length command le_rfl, ?_, ?_⟩
  · intro x hx
    have h := filterPodFlags_clean command.length command le_rfl x hx
    simp only [isPodFlag, Bool.or_eq_false_iff, decide_eq_false_iff_not, not_or] at h
    exact ⟨h.1.1, h.1.2, h.2.1, h.2.2⟩
  · obtain ⟨m, hm1, hm2, hm3⟩ := filterPodFlags_mask command.length command le_rfl
    refine ⟨m, hm1, hm2, fun i x hx hm => ?_⟩
    rcases hm3 i x hx hm with hf | hj
    · left
      simp only [isPodFlag, Bool.or_eq_true, decide_eq_true_eq] at hf
      tauto
    · exact Or.inr hj

end Generate
